import Mathlib

/-!
# QR-code WiFi provisioning demo: verification development

Shallow embedding of `main/qrcode_demo_main.c`:

* the credential parser `parse_wifi_qr_code` together with the C string
  functions it calls (`strstr`, `strchr`, `strlen`, `strncpy`);
* the WiFi event handler `wifi_event_handler`;
* the bounded wait for the association result inside `processing_task`;
* the per-frame body of `processing_task` and one iteration of the capture
  loop of `main_task`, both producing the trace of the calls they make.

Conventions.  A `const char *` is modelled by the list of bytes stored from
the pointer onwards; the C string it denotes is the part before the first NUL
(`cstr`), the end of the list standing for the terminator as well.  Pointer
differences are offsets into that list.  Lengths are natural numbers: a
decoded payload is a few kilobytes at most, so the `int` arithmetic on
lengths never wraps.
-/

namespace QrDemo

/-! ## C strings -/

/-- The terminator byte of a C string. -/
abbrev NUL : Char := Char.ofNat 0

/-- The C string stored at a pointer: the bytes before the first NUL. -/
def cstr (p : List Char) : List Char := p.takeWhile (fun c => c != NUL)

/-- Offset of the first occurrence of `c` in a list of characters. -/
def findChar (c : Char) : List Char → Option Nat
  | [] => none
  | x :: xs => if x = c then some 0 else (findChar c xs).map (· + 1)

/-- Offset of the first occurrence of `needle` as a contiguous block. -/
def findSub (needle : List Char) : List Char → Option Nat
  | [] => if needle = [] then some 0 else none
  | x :: xs =>
    if needle.isPrefixOf (x :: xs) then some 0
    else (findSub needle xs).map (· + 1)

/-- The C function `strlen(p)`. -/
def strlen (p : List Char) : Nat := (cstr p).length

/-- The C function `strchr(p, c)`: offset from `p` of the first `c` in the
string at `p` (the terminator counts as part of the string), `none` for a NULL
result. -/
def strchr (p : List Char) (c : Char) : Option Nat :=
  if c = NUL then some (strlen p) else findChar c (cstr p)

/-- The C function `strstr(haystack, needle)`: offset from `haystack` of the
first occurrence of the string `needle` in the string `haystack`, `none` for a
NULL result. -/
def strstr (haystack needle : List Char) : Option Nat :=
  findSub (cstr needle) (cstr haystack)

/-- The C function `strncpy(dst, src, n)`: writes exactly `n` bytes to `dst`,
the characters of the string at `src` followed by NUL padding when that string
is shorter than `n`.  `none` when `n` bytes do not fit in `dst` (undefined
behaviour). -/
def strncpy (dst src : List Char) (n : Nat) : Option (List Char) :=
  if n ≤ dst.length then
    some ((cstr src).take n ++ List.replicate (n - strlen src) NUL ++ dst.drop n)
  else none

/-- The assignment `buf[i] = c`; `none` when `i` is outside the buffer. -/
def store (buf : List Char) (i : Nat) (c : Char) : Option (List Char) :=
  if i < buf.length then some (buf.set i c) else none

/-! ## The credential parser (`parse_wifi_qr_code`, lines 226-267) -/

/-- What `parse_wifi_qr_code` leaves behind: its return value and the contents
of the two output buffers. -/
structure ParseResult where
  ok : Bool
  ssid : List Char
  password : List Char
deriving DecidableEq, Repr

/-- The clamp `if (len >= 64) len = 63;` applied to both field lengths. -/
def clampLen (len : Nat) : Nat := if len ≥ 64 then 63 else len

/-- The function `parse_wifi_qr_code(qr_data, ssid, password)`.  The arguments
`ssid` and `password` are the caller's output buffers; the result is `none`
when a write falls outside one of them. -/
def parse_wifi_qr_code (qr_data ssid password : List Char) : Option ParseResult :=
  match strstr qr_data ['S', ':'], strstr qr_data ['P', ':'] with
  | some s0, some p0 =>
    -- ssid_start += 2
    let ssid_start := qr_data.drop (s0 + 2)
    match strchr ssid_start ';' with
    | none => some ⟨false, ssid, password⟩
    | some ssid_end =>
      let ssid_len := clampLen ssid_end
      (strncpy ssid ssid_start ssid_len).bind fun ssid1 =>
      (store ssid1 ssid_len NUL).bind fun ssid2 =>
      -- pass_start += 2
      let pass_start := qr_data.drop (p0 + 2)
      let pass_end :=
        match strchr pass_start ';' with
        | some e => e
        | none => strlen pass_start
      let pass_len := clampLen pass_end
      (strncpy password pass_start pass_len).bind fun password1 =>
      (store password1 pass_len NUL).bind fun password2 =>
      some ⟨true, ssid2, password2⟩
  | _, _ => some ⟨false, ssid, password⟩

/-- A zero-initialised 64-byte buffer, `char buf[64] = {0}`. -/
def zeroBuf : List Char := List.replicate 64 NUL

/-- The name field cut out by the parser: the text after the marker up to
the next `;` (or to the end of the string). -/
def fieldAt (payload : List Char) (start : Nat) : List Char :=
  (payload.drop start).takeWhile (fun x => x != ';')

/-- The first occurrence of `needle` in `text` is at offset `i`: it occurs
there and at no smaller offset. -/
def FirstOccurrenceAt (needle text : List Char) (i : Nat) : Prop :=
  needle <+: text.drop i ∧ ∀ j, j < i → ¬ needle <+: text.drop j

instance (needle text : List Char) (i : Nat) : Decidable (FirstOccurrenceAt needle text i) := by
  unfold FirstOccurrenceAt
  infer_instance

/-- A payload whose name field is 100 characters long. -/
def longNamePayload : List Char := ['S', ':'] ++ List.replicate 100 'a' ++ [';', 'P', ':', 'x']

/-! ## Process-wide state and observable calls -/

/-- The globals that take part in control flow: `wifi_connected` (line 65) and
`camera_stopped` (line 67), both initialised to `false`.  The third global,
`connected_ssid`, is written once (line 396) and read only by the log statement
that follows it, so it is left out. -/
structure Globals where
  wifi_connected : Bool
  camera_stopped : Bool
deriving DecidableEq, Repr

/-- The static initialisers of lines 65 and 67. -/
def Globals.init : Globals := ⟨false, false⟩

/-- A camera frame buffer handle (`camera_fb_t *`). -/
abbrev Frame := Nat

/-- The calls to collaborators that the tasks and the event handler make, in
the order they are made.  Durations are the millisecond argument given to
`pdMS_TO_TICKS`; the index `i` is the value of the loop variable of the
`for` loop of `processing_task` at the call, and `quirc_decode i` stands for
the pair `quirc_extract(qr, i, &code)`, `quirc_decode(&code, &qr_data)`. -/
inductive Call
  | esp_camera_fb_get (fb : Option Frame)
  | xQueueSend (fb : Frame) (ms : Nat) (delivered : Bool)
  | esp_camera_fb_return (fb : Frame)
  | vTaskDelay (ms : Nat)
  | quirc_decode (i : Nat)
  | parse_wifi_qr_code (i : Nat)
  | connect_to_wifi (i : Nat) (ssid password : List Char)
  | esp_wifi_connect
  | esp_camera_deinit
  | vTaskDelete
deriving DecidableEq, Repr

/-! ## The WiFi event handler (`wifi_event_handler`, lines 185-198) -/

/-- The two event bases the handler is registered for (lines 171-172). -/
inductive esp_event_base_t
  | WIFI_EVENT
  | IP_EVENT
deriving DecidableEq, Repr

/-- Modelled from the spec: the event identifiers are declared in the SDK
headers, which are not among the sources.  The spec names three distinct
notifications, StationStarted, Disconnected and GotAddress; the numbers are
those of the SDK enumerations `wifi_event_t` and `ip_event_t`. -/
def WIFI_EVENT_STA_START : Int := 2

/-- Modelled from the spec: the Disconnected notification, see
`WIFI_EVENT_STA_START`. -/
def WIFI_EVENT_STA_DISCONNECTED : Int := 5

/-- Modelled from the spec: the GotAddress notification, see
`WIFI_EVENT_STA_START`. -/
def IP_EVENT_STA_GOT_IP : Int := 0

/-- The handler `wifi_event_handler(arg, event_base, event_id, event_data)`:
the new globals and the calls made. -/
def wifi_event_handler (g : Globals) (event_base : esp_event_base_t) (event_id : Int) :
    Globals × List Call :=
  if event_base = .WIFI_EVENT ∧ event_id = WIFI_EVENT_STA_START then
    (g, [])
  else if event_base = .WIFI_EVENT ∧ event_id = WIFI_EVENT_STA_DISCONNECTED then
    ({ g with wifi_connected := false }, [Call.esp_wifi_connect])
  else if event_base = .IP_EVENT ∧ event_id = IP_EVENT_STA_GOT_IP then
    ({ g with wifi_connected := true }, [])
  else
    (g, [])

/-! ## Waiting for the association result (lines 388-410) -/

/-- The loop `while (!wifi_connected && attempts < 100) { vTaskDelay(...);
attempts++; }` started with the given value of `attempts`; the result is the
value of `attempts` when the loop is left.  `wifi_connected k` is the value
the flag has when the loop condition is evaluated with `attempts = k`, that
is, after `k` delays. -/
def wait_loop (wifi_connected : Nat → Bool) (attempts : Nat) : Nat :=
  if h : wifi_connected attempts = false ∧ attempts < 100 then
    wait_loop wifi_connected (attempts + 1)
  else attempts
termination_by 100 - attempts
decreasing_by omega

/-- What the wait leaves behind: the number of delays performed and the value
read by `if (wifi_connected)` after the loop. -/
structure WaitOutcome where
  delays : Nat
  connected : Bool
deriving DecidableEq, Repr

/-- Lines 389-395: `attempts = 0`, the loop, and the check after it.  The
check after the loop is the read that follows the last evaluation of the loop
condition, read number `attempts + 1`. -/
def await_connection (wifi_connected : Nat → Bool) : WaitOutcome :=
  let attempts := wait_loop wifi_connected 0
  ⟨attempts, wifi_connected (attempts + 1)⟩

/-- The calls made by the wait: one `vTaskDelay(pdMS_TO_TICKS(100))` for each
iteration. -/
def WaitOutcome.trace (w : WaitOutcome) : List Call :=
  List.replicate w.delays (Call.vTaskDelay 100)

/-! ## The decode loop (`processing_task`, lines 348-419) -/

/-- Return codes of `connect_to_wifi`. -/
inductive esp_err_t
  | ESP_OK
  | ESP_FAIL
deriving DecidableEq, Repr

/-- The function `connect_to_wifi(ssid, password)` (lines 201-223): both SDK
calls are wrapped in `ESP_ERROR_CHECK`, so the only value the function returns
is `ESP_OK`. -/
def connect_to_wifi (_ssid _password : List Char) : esp_err_t := .ESP_OK

/-- The state in which the processing of one frame ends: the calls made, the
globals, and whether the task deleted itself. -/
structure FrameOutcome where
  trace : List Call
  globals : Globals
  deleted : Bool
deriving DecidableEq, Repr

/-- Puts the calls of one iteration in front of those of the rest of the loop. -/
def FrameOutcome.after (calls : List Call) (o : FrameOutcome) : FrameOutcome :=
  { o with trace := calls ++ o.trace }

/-- The `for (int i = 0; i < count; i++)` loop of lines 364-416, from index
`i` on.  `codes` are the results of `quirc_decode` for the codes not yet
visited, `none` for a decoding error; `wifi i k` is the value of
`wifi_connected` at read `k` of the wait started for code `i`.  The result is
`none` only if the parser writes outside its buffers. -/
def processing_task_for (wifi : Nat → Nat → Bool) (g : Globals) :
    Nat → List (Option (List Char)) → Option FrameOutcome
  | _, [] => some ⟨[], g, false⟩
  | i, none :: rest =>
    (processing_task_for wifi g (i + 1) rest).map (FrameOutcome.after [Call.quirc_decode i])
  | i, some payload :: rest =>
    (parse_wifi_qr_code payload zeroBuf zeroBuf).bind fun r =>
      if r.ok then
        if connect_to_wifi (cstr r.ssid) (cstr r.password) = .ESP_OK then
          let w := await_connection (wifi i)
          if w.connected then
            some ⟨[Call.quirc_decode i, Call.parse_wifi_qr_code i,
                    Call.connect_to_wifi i (cstr r.ssid) (cstr r.password)] ++ w.trace ++
                    [Call.esp_camera_deinit, Call.vTaskDelete],
                  { g with camera_stopped := true }, true⟩
          else
            (processing_task_for wifi g (i + 1) rest).map
              (FrameOutcome.after ([Call.quirc_decode i, Call.parse_wifi_qr_code i,
                Call.connect_to_wifi i (cstr r.ssid) (cstr r.password)] ++ w.trace))
        else
          (processing_task_for wifi g (i + 1) rest).map
            (FrameOutcome.after [Call.quirc_decode i, Call.parse_wifi_qr_code i,
              Call.connect_to_wifi i (cstr r.ssid) (cstr r.password)])
      else
        (processing_task_for wifi g (i + 1) rest).map
          (FrameOutcome.after [Call.quirc_decode i, Call.parse_wifi_qr_code i])

/-- One iteration of the `while (1)` loop of `processing_task` for a received
frame `fb` (lines 354-418): the `for` loop over the located codes, then
`esp_camera_fb_return(fb)` unless the task has returned from inside the loop. -/
def processing_task_frame (fb : Frame) (codes : List (Option (List Char)))
    (wifi : Nat → Nat → Bool) (g : Globals) : Option FrameOutcome :=
  (processing_task_for wifi g 0 codes).map fun o =>
    if o.deleted then o else { o with trace := o.trace ++ [Call.esp_camera_fb_return fb] }

/-! ## The capture loop (`main_task`, lines 298-327) -/

/-- The macro `pdMS_TO_TICKS(ms)` of the kernel headers, which are not among
the sources: `ms * configTICK_RATE_HZ / 1000`.  The tick rate of the build
configuration is a parameter. -/
def pdMS_TO_TICKS (configTICK_RATE_HZ ms : Nat) : Nat := ms * configTICK_RATE_HZ / 1000

/-- The result of a deposit: whether it returned `pdTRUE`, the content of the
queue when it returns, and the number of whole ticks the caller was blocked. -/
structure SendOutcome where
  delivered : Bool
  slot : Option Frame
  waited : Nat
deriving DecidableEq, Repr

/-- A blocked sender on a full queue of length 1: `space t` tells whether the
receiver has emptied the queue during tick `t` of the wait; the sender gives
up when `ticks` ticks have gone by. -/
def queue_wait (old item : Frame) (space : Nat → Bool) : Nat → Nat → SendOutcome
  | 0, elapsed => ⟨false, some old, elapsed⟩
  | ticks + 1, elapsed =>
    if space elapsed then ⟨true, some item, elapsed⟩
    else queue_wait old item space ticks (elapsed + 1)

/-- The call `xQueueSend(queue, &item, ticks)` on the queue of length 1 created
at line 298, by the contract of the kernel's queue: the item is stored at once
in an empty queue; on a full queue the caller blocks for up to `ticks` ticks. -/
def xQueueSend (slot : Option Frame) (item : Frame) (ticks : Nat) (space : Nat → Bool) :
    SendOutcome :=
  match slot with
  | none => ⟨true, some item, 0⟩
  | some old => queue_wait old item space ticks 0

/-- The state in which one iteration of the capture loop ends. -/
structure IterOutcome where
  trace : List Call
  exited : Bool
  slot : Option Frame
  waited : Nat
deriving DecidableEq, Repr

/-- One iteration of the `while (1)` loop of `main_task` (lines 306-327).
`acquired` is the result of `esp_camera_fb_get()`, `slot` the content of the
queue, `space` the receiver's behaviour during a blocked deposit. -/
def main_task_iteration (configTICK_RATE_HZ : Nat) (g : Globals) (slot : Option Frame)
    (acquired : Option Frame) (space : Nat → Bool) : IterOutcome :=
  if g.camera_stopped then
    ⟨[], true, slot, 0⟩
  else
    match acquired with
    | none => ⟨[Call.esp_camera_fb_get none, Call.vTaskDelay 100], false, slot, 0⟩
    | some fb =>
      let r := xQueueSend slot fb (pdMS_TO_TICKS configTICK_RATE_HZ 100) space
      if r.delivered then
        ⟨[Call.esp_camera_fb_get (some fb), Call.xQueueSend fb 100 true, Call.vTaskDelay 20],
          false, r.slot, r.waited⟩
      else
        ⟨[Call.esp_camera_fb_get (some fb), Call.xQueueSend fb 100 false,
            Call.esp_camera_fb_return fb, Call.vTaskDelay 20], false, r.slot, r.waited⟩

/-! ## The program as a transition system -/

/-- The globals together with the liveness of the two tasks. -/
structure Sys where
  g : Globals
  capture_running : Bool
  decode_running : Bool
deriving DecidableEq, Repr

/-- The state when both tasks have been created. -/
def Sys.init : Sys := ⟨Globals.init, true, true⟩

/-- One atomic action of the program: the handling of one event, one
iteration of the capture loop, or the processing of one frame.  The handler
runs concurrently with the decode loop, so the values the decode loop reads
from `wifi_connected` while it waits are those given by `wifi`, whatever they
are. -/
inductive Step : Sys → Sys → Prop
  | event (s : Sys) (event_base : esp_event_base_t) (event_id : Int) :
      Step s { s with g := (wifi_event_handler s.g event_base event_id).1 }
  | capture (s : Sys) (hz : Nat) (slot acquired : Option Frame) (space : Nat → Bool) :
      s.capture_running = true →
      Step s { s with
        capture_running := !(main_task_iteration hz s.g slot acquired space).exited }
  | decode (s : Sys) (fb : Frame) (codes : List (Option (List Char)))
      (wifi : Nat → Nat → Bool) (o : FrameOutcome) :
      s.decode_running = true →
      processing_task_frame fb codes wifi s.g = some o →
      Step s { s with g := o.globals, decode_running := !o.deleted }

/-- States reachable from `s` in any number of steps. -/
def Reach : Sys → Sys → Prop := Relation.ReflTransGen Step

/-! ## Derived notions used to state the properties of the decode loop -/

/-- The credential the decode loop passes to `connect_to_wifi` for a decoded
payload: the two output strings of the parser when it returns `true`. -/
def credentialOf (payload : List Char) : Option (List Char × List Char) :=
  match parse_wifi_qr_code payload zeroBuf zeroBuf with
  | some r => if r.ok then some (cstr r.ssid, cstr r.password) else none
  | none => none

/-- The attempt made for code `i` ends the task: the code decodes to a
credential and the check after the wait reads `wifi_connected` as true. -/
def stopsHere (wifi : Nat → Nat → Bool) (i : Nat) (code : Option (List Char)) : Bool :=
  match code with
  | some payload => (credentialOf payload).isSome && (await_connection (wifi i)).connected
  | none => false

/-- The calls of iteration `i` of the `for` loop, up to the check after the
wait. -/
def visit_calls (wifi : Nat → Nat → Bool) (i : Nat) (code : Option (List Char)) : List Call :=
  match code with
  | none => [Call.quirc_decode i]
  | some payload =>
    match credentialOf payload with
    | none => [Call.quirc_decode i, Call.parse_wifi_qr_code i]
    | some (ssid, password) =>
      [Call.quirc_decode i, Call.parse_wifi_qr_code i, Call.connect_to_wifi i ssid password]
        ++ (await_connection (wifi i)).trace

/-- Code `j` of the frame is reached by the `for` loop: it exists and no
attempt made for an earlier code of the frame has ended the task. -/
def visited (wifi : Nat → Nat → Bool) (codes : List (Option (List Char))) (j : Nat) : Prop :=
  j < codes.length ∧ ∀ i, i < j → stopsHere wifi i (codes.getD i none) = false

instance (wifi : Nat → Nat → Bool) (codes : List (Option (List Char))) (j : Nat) :
    Decidable (visited wifi codes j) := by
  unfold visited
  infer_instance

/-- The call is `connect_to_wifi` made in iteration `j`. -/
def Call.isConnect (j : Nat) : Call → Bool
  | .connect_to_wifi i _ _ => i == j
  | _ => false

/-- The payload used in the end-to-end scenario, `"S:Home;P:hunter2;"`. -/
def homePayload : List Char := "S:Home;P:hunter2;".toList

/-- The notion `visited` for the `for` loop started at index `start` on the
codes not yet visited; `visited` is the case `start = 0`. -/
def visitedFrom (wifi : Nat → Nat → Bool) (start : Nat) (codes : List (Option (List Char)))
    (j : Nat) : Prop :=
  start ≤ j ∧ j - start < codes.length ∧
    ∀ k, k < j - start → stopsHere wifi (start + k) (codes.getD k none) = false

instance (wifi : Nat → Nat → Bool) (start : Nat) (codes : List (Option (List Char))) (j : Nat) :
    Decidable (visitedFrom wifi start codes j) := by
  unfold visitedFrom
  infer_instance

/-! # Theorems -/

theorem cstr_eq_self {l : List Char} (h : NUL ∉ l) : cstr l = l := by
  unfold cstr
  rw [List.takeWhile_eq_self_iff]
  intro c hc
  have : c ≠ NUL := fun e => h (e ▸ hc)
  simpa using this

theorem cstr_append_left {a : List Char} (b : List Char) (h : NUL ∉ a) :
    cstr (a ++ b) = a ++ cstr b := by
  induction a with
  | nil => rfl
  | cons x a ih =>
    have hx : x ≠ NUL := fun e => h (by simp [e])
    have ha : NUL ∉ a := fun m => h (List.mem_cons_of_mem _ m)
    have := ih ha
    simp only [cstr] at this ⊢
    simp [List.takeWhile_cons, hx, this]

theorem not_mem_cstr (p : List Char) : NUL ∉ cstr p := by
  intro h
  have := List.mem_takeWhile_imp h
  simp at this

theorem cstr_drop {p : List Char} {k : Nat} (h : k ≤ (cstr p).length) :
    cstr (p.drop k) = (cstr p).drop k := by
  induction p generalizing k with
  | nil => simp [cstr]
  | cons x p ih =>
    cases k with
    | zero => rfl
    | succ k =>
      by_cases hx : x = NUL
      · simp [cstr, hx] at h
      · have h2 : cstr (x :: p) = x :: cstr p := by simp [cstr, List.takeWhile_cons, hx]
        rw [h2] at h ⊢
        simp at h
        simpa using ih h

theorem findChar_eq_none {c : Char} {l : List Char} : findChar c l = none ↔ c ∉ l := by
  induction l with
  | nil => simp [findChar]
  | cons x l ih =>
    by_cases hx : x = c
    · simp [findChar, hx]
    · have : ¬ c = x := fun e => hx e.symm
      simp [findChar, hx, ih, this]

theorem findChar_append_cons {c : Char} {pre : List Char} (post : List Char) (h : c ∉ pre) :
    findChar c (pre ++ c :: post) = some pre.length := by
  induction pre with
  | nil => simp [findChar]
  | cons x pre ih =>
    have hx : x ≠ c := fun e => h (by simp [e])
    have hp : c ∉ pre := fun m => h (List.mem_cons_of_mem _ m)
    simp [findChar, hx, ih hp]

theorem findChar_eq_some {c : Char} {l : List Char} {i : Nat} (h : findChar c l = some i) :
    ∃ post, l = l.take i ++ c :: post ∧ c ∉ l.take i ∧ i < l.length := by
  induction l generalizing i with
  | nil => simp [findChar] at h
  | cons x l ih =>
    by_cases hx : x = c
    · simp [findChar, hx] at h
      subst h
      exact ⟨l, by simp [hx], by simp, by simp⟩
    · simp only [findChar, hx, if_false, Option.map_eq_some'] at h
      obtain ⟨j, hj, rfl⟩ := h
      obtain ⟨post, h1, h2, h3⟩ := ih hj
      refine ⟨post, ?_, ?_, ?_⟩
      · simp only [List.take_succ_cons, List.cons_append]
        rw [← h1]
      · simp only [List.take_succ_cons, List.mem_cons, not_or]
        exact ⟨fun e => hx e.symm, h2⟩
      · simp; omega

theorem findSub_eq_none {nd l : List Char} : findSub nd l = none ↔ ¬ nd <:+: l := by
  induction l with
  | nil => by_cases h : nd = [] <;> simp [findSub, h]
  | cons x l ih =>
    by_cases hp : nd <+: x :: l
    · simp [findSub, List.isPrefixOf_iff_prefix, hp, List.infix_cons_iff]
    · simp [findSub, List.isPrefixOf_iff_prefix, hp, List.infix_cons_iff, ih]

theorem findSub_eq_some {nd l : List Char} {i : Nat} :
    findSub nd l = some i ↔
      i ≤ l.length ∧ nd <+: l.drop i ∧ ∀ j < i, ¬ nd <+: l.drop j := by
  induction l generalizing i with
  | nil =>
    by_cases h : nd = []
    · subst h
      simp [findSub]
      constructor
      · rintro rfl; simp
      · rintro ⟨h, -⟩; exact h.symm
    · simp [findSub, h]
  | cons x l ih =>
    by_cases hp : nd <+: x :: l
    · simp only [findSub, List.isPrefixOf_iff_prefix, hp, if_true, Option.some.injEq]
      constructor
      · rintro rfl; simp [hp]
      · rintro ⟨-, -, h3⟩
        by_contra hne
        exact h3 0 (by omega) (by simpa using hp)
    · simp only [findSub, List.isPrefixOf_iff_prefix, hp, if_false, Option.map_eq_some']
      constructor
      · rintro ⟨k, hk, rfl⟩
        obtain ⟨h1, h2, h3⟩ := ih.mp hk
        refine ⟨by simpa using h1, by simpa using h2, ?_⟩
        intro j hj
        cases j with
        | zero => simpa using hp
        | succ j => simpa using h3 j (by omega)
      · rintro ⟨h1, h2, h3⟩
        cases i with
        | zero => exact absurd (by simpa using h2) hp
        | succ i =>
          refine ⟨i, ih.mpr ⟨by simpa using h1, by simpa using h2, ?_⟩, rfl⟩
          intro j hj
          simpa using h3 (j + 1) (by omega)

theorem findSub_pair_skip (a b : Char) (n rest : List Char)
    (hn : ¬ [a, b] <:+: n) (hr : rest.head? ≠ some b) :
    findSub [a, b] (n ++ rest) = (findSub [a, b] rest).map (· + n.length) := by
  induction n with
  | nil => simp
  | cons c n ih =>
    have hn2 : ¬ [a, b] <:+: n := fun h => hn (List.infix_cons h)
    have hpre : ¬ [a, b] <+: c :: (n ++ rest) := by
      intro hp
      cases n with
      | nil =>
        cases rest with
        | nil => simpa using hp.length_le
        | cons r rest =>
          simp only [List.nil_append, List.cons_prefix_cons] at hp
          exact hr (by simp [hp.2.1])
      | cons d n =>
        simp only [List.cons_append, List.cons_prefix_cons] at hp
        apply hn
        rw [hp.1, hp.2.1]
        exact ⟨[], n, by simp⟩
    have hstep : findSub [a, b] (c :: (n ++ rest)) =
        (findSub [a, b] (n ++ rest)).map (· + 1) := by
      simp only [findSub, List.isPrefixOf_iff_prefix, hpre, if_false]
    rw [List.cons_append, hstep, ih hn2, Option.map_map]
    congr 1

theorem findChar_takeWhile (c : Char) (l : List Char) :
    (match findChar c l with
      | some e => e
      | none => l.length) = (l.takeWhile (fun x => x != c)).length := by
  induction l with
  | nil => simp [findChar]
  | cons x l ih =>
    by_cases hx : x = c
    · simp [findChar, hx, List.takeWhile_cons]
    · simp only [findChar, hx, if_false, List.takeWhile_cons]
      have : (x != c) = true := by simpa using hx
      simp only [this, if_true, List.length_cons]
      rw [← ih]
      cases findChar c l <;> simp

theorem findChar_some_takeWhile {c : Char} {l : List Char} {e : Nat}
    (h : findChar c l = some e) : e = (l.takeWhile (fun x => x != c)).length := by
  have := findChar_takeWhile c l
  rw [h] at this
  exact this

theorem clampLen_eq_min (k : Nat) : clampLen k = min k 63 := by
  unfold clampLen
  split <;> omega

theorem write_field_copy {buf src : List Char} {k : Nat} (hb : buf.length = 64)
    (hk : k ≤ strlen src) :
    strncpy buf src (clampLen k) =
      some ((cstr src).take (clampLen k) ++ buf.drop (clampLen k)) := by
  have hc : clampLen k ≤ 63 := by rw [clampLen_eq_min]; omega
  have hc2 : clampLen k ≤ k := by rw [clampLen_eq_min]; omega
  have hz : clampLen k - strlen src = 0 := by omega
  unfold strncpy
  rw [if_pos (by omega), hz]
  simp

theorem write_field_store {buf src : List Char} {k : Nat} (hb : buf.length = 64)
    (hk : k ≤ strlen src) :
    store ((cstr src).take (clampLen k) ++ buf.drop (clampLen k)) (clampLen k) NUL =
      some ((cstr src).take (clampLen k) ++ NUL :: buf.drop (clampLen k + 1)) := by
  have hc : clampLen k ≤ 63 := by rw [clampLen_eq_min]; omega
  have hc2 : clampLen k ≤ k := by rw [clampLen_eq_min]; omega
  have hlen : ((cstr src).take (clampLen k)).length = clampLen k := by
    rw [List.length_take]; unfold strlen at hk; omega
  unfold store
  rw [if_pos (by simp only [List.length_append, List.length_drop, hlen]; omega)]
  congr 1
  rw [List.set_append_right _ _ (by omega), hlen, Nat.sub_self]
  congr 1
  have hd : (List.drop (clampLen k) buf) ≠ [] := by
    intro h
    have := congrArg List.length h
    simp at this; omega
  obtain ⟨y, ys, hy⟩ := List.exists_cons_of_ne_nil hd
  rw [hy, List.set_cons_zero]
  have : List.drop 1 (List.drop (clampLen k) buf) = ys := by rw [hy]; rfl
  rw [← this, List.drop_drop]

theorem cstr_written (f rest : List Char) (h : NUL ∉ f) : cstr (f ++ NUL :: rest) = f := by
  rw [cstr_append_left _ h]
  simp [cstr]

theorem take_clamp_takeWhile (l : List Char) (c : Char) :
    l.take (clampLen (l.takeWhile (fun x => x != c)).length) =
      (l.takeWhile (fun x => x != c)).take 63 := by
  have h := List.takeWhile_append_dropWhile (fun x => x != c) l
  generalize l.takeWhile (fun x => x != c) = tw at h ⊢
  rw [clampLen_eq_min]
  conv_lhs => rw [← h]
  rw [List.take_append_of_le_length (by omega)]
  by_cases h63 : tw.length ≤ 63
  · rw [Nat.min_eq_left h63, List.take_of_length_le (Nat.le_refl _), List.take_of_length_le h63]
  · rw [Nat.min_eq_right (by omega)]

theorem marker_le {nd l : List Char} {i : Nat} (h : findSub nd l = some i) :
    i + nd.length ≤ l.length := by
  obtain ⟨h1, h2, -⟩ := findSub_eq_some.mp h
  have := h2.length_le
  simp at this
  omega

theorem parse_eq (qr ssid pw : List Char) (hl1 : ssid.length = 64) (hl2 : pw.length = 64) :
    parse_wifi_qr_code qr ssid pw =
      match findSub ['S', ':'] (cstr qr), findSub ['P', ':'] (cstr qr) with
      | some s0, some p0 =>
        match findChar ';' ((cstr qr).drop (s0 + 2)) with
        | none => some ⟨false, ssid, pw⟩
        | some _ =>
          some ⟨true,
            (fieldAt (cstr qr) (s0 + 2)).take 63 ++
              NUL :: ssid.drop (clampLen (fieldAt (cstr qr) (s0 + 2)).length + 1),
            (fieldAt (cstr qr) (p0 + 2)).take 63 ++
              NUL :: pw.drop (clampLen (fieldAt (cstr qr) (p0 + 2)).length + 1)⟩
      | _, _ => some ⟨false, ssid, pw⟩ := by
  have hS : cstr ['S', ':'] = ['S', ':'] := by decide
  have hP : cstr ['P', ':'] = ['P', ':'] := by decide
  have hsemi : (';' = NUL) = False := by decide
  unfold parse_wifi_qr_code strstr
  rw [hS, hP]
  cases hs : findSub ['S', ':'] (cstr qr) with
  | none => rfl
  | some s0 =>
    cases hp : findSub ['P', ':'] (cstr qr) with
    | none => rfl
    | some p0 =>
      have hs2 : s0 + 2 ≤ (cstr qr).length := marker_le hs
      have hp2 : p0 + 2 ≤ (cstr qr).length := marker_le hp
      simp only [strchr, hsemi, if_false, cstr_drop hs2, cstr_drop hp2, strlen]
      cases he : findChar ';' ((cstr qr).drop (s0 + 2)) with
      | none => rfl
      | some e =>
        have he2 := findChar_some_takeWhile he
        have hle : e ≤ strlen (qr.drop (s0 + 2)) := by
          rw [strlen, cstr_drop hs2, he2]
          exact (List.takeWhile_prefix _).length_le
        simp only []
        rw [write_field_copy hl1 hle]
        simp only [Option.some_bind]
        rw [write_field_store hl1 hle]
        simp only [Option.some_bind]
        rw [findChar_takeWhile]
        have hle2 : (List.takeWhile (fun x => x != ';') (List.drop (p0 + 2) (cstr qr))).length
            ≤ strlen (qr.drop (p0 + 2)) := by
          rw [strlen, cstr_drop hp2]
          exact (List.takeWhile_prefix _).length_le
        rw [write_field_copy hl2 hle2]
        simp only [Option.some_bind]
        rw [write_field_store hl2 hle2]
        simp only [Option.some_bind, cstr_drop hs2, cstr_drop hp2, he2, take_clamp_takeWhile,
          fieldAt]

/-- The parser looks at the C string only: what lies behind the terminator
has no influence on its result. -/
theorem parse_congr_cstr (q1 q2 ssid pw : List Char) (hq : cstr q1 = cstr q2)
    (hl1 : ssid.length = 64) (hl2 : pw.length = 64) :
    parse_wifi_qr_code q1 ssid pw = parse_wifi_qr_code q2 ssid pw := by
  rw [parse_eq q1 ssid pw hl1 hl2, parse_eq q2 ssid pw hl1 hl2, hq]

theorem fieldAt_split (pre f rest : List Char) (hf : ';' ∉ f)
    (hrest : rest.head? ≠ some ';' → rest = []) :
    fieldAt (pre ++ f ++ rest) pre.length = f := by
  unfold fieldAt
  rw [List.append_assoc, List.drop_left]
  have hall : ∀ x ∈ f, (x != ';') = true := by
    intro x hx
    have : x ≠ ';' := fun e => hf (e ▸ hx)
    simpa using this
  cases rest with
  | nil =>
    rw [List.append_nil, List.takeWhile_eq_self_iff.mpr hall]
  | cons r rest =>
    have hr : r = ';' := by
      by_contra hne
      have := hrest (by simpa using hne)
      simp at this
    subst hr
    rw [List.takeWhile_append_of_pos hall]
    simp

theorem parse_of_fields (qr ssid pw preS n restS preP s restP : List Char)
    (hq1 : cstr qr = preS ++ ['S', ':'] ++ n ++ ';' :: restS)
    (hS : findSub ['S', ':'] (cstr qr) = some preS.length)
    (hq2 : cstr qr = preP ++ ['P', ':'] ++ s ++ restP)
    (hP : findSub ['P', ':'] (cstr qr) = some preP.length)
    (hn : ';' ∉ n) (hs : ';' ∉ s) (hrest : restP.head? ≠ some ';' → restP = [])
    (hl1 : ssid.length = 64) (hl2 : pw.length = 64) :
    parse_wifi_qr_code qr ssid pw =
      some ⟨true, n.take 63 ++ NUL :: ssid.drop (clampLen n.length + 1),
        s.take 63 ++ NUL :: pw.drop (clampLen s.length + 1)⟩ := by
  rw [parse_eq qr ssid pw hl1 hl2, hS, hP]
  have hf1 : fieldAt (cstr qr) (preS.length + 2) = n := by
    have := fieldAt_split (preS ++ ['S', ':']) n (';' :: restS) hn (by simp)
    rw [← hq1] at this
    simpa using this
  have hf2 : fieldAt (cstr qr) (preP.length + 2) = s := by
    have := fieldAt_split (preP ++ ['P', ':']) s restP hs hrest
    rw [← hq2] at this
    simpa using this
  have hc : findChar ';' ((cstr qr).drop (preS.length + 2)) = some n.length := by
    rw [hq1]
    have : preS ++ ['S', ':'] ++ n ++ ';' :: restS = (preS ++ ['S', ':']) ++ (n ++ ';' :: restS) := by
      simp
    rw [this, show preS.length + 2 = (preS ++ ['S', ':']).length by simp, List.drop_left]
    exact findChar_append_cons _ hn
  simp only [hc, hf1, hf2]

theorem name_first_result (n s t ssid password : List Char)
    (hn1 : ';' ∉ n) (hn2 : NUL ∉ n) (hs1 : ';' ∉ s) (hs2 : NUL ∉ s)
    (hnP : ¬ ['P', ':'] <:+: n) (ht : t = [';'] ∨ t = [])
    (hb1 : ssid.length = 64) (hb2 : password.length = 64) :
    parse_wifi_qr_code (['S', ':'] ++ n ++ [';', 'P', ':'] ++ s ++ t) ssid password =
      some ⟨true, n.take 63 ++ NUL :: ssid.drop (clampLen n.length + 1),
        s.take 63 ++ NUL :: password.drop (clampLen s.length + 1)⟩ := by
  have htN : NUL ∉ t := by rcases ht with rfl | rfl <;> decide
  have hc : cstr (['S', ':'] ++ n ++ [';', 'P', ':'] ++ s ++ t) =
      ['S', ':'] ++ n ++ [';', 'P', ':'] ++ s ++ t := by
    apply cstr_eq_self
    simp only [List.mem_append, not_or]
    exact ⟨⟨⟨⟨by decide, hn2⟩, by decide⟩, hs2⟩, htN⟩
  apply parse_of_fields _ ssid password [] n (['P', ':'] ++ s ++ t)
    (['S', ':'] ++ n ++ [';']) s t
  · rw [hc]; simp
  · rw [hc]
    simp [findSub]
  · rw [hc]; simp
  · rw [hc]
    have h1 : ['S', ':'] ++ n ++ [';', 'P', ':'] ++ s ++ t
        = 'S' :: ':' :: (n ++ (';' :: 'P' :: ':' :: (s ++ t))) := by simp
    have hdec1 : ¬ ('P' = 'S') := by decide
    have hdec2 : ¬ ('P' = ':') := by decide
    have hdec3 : ¬ ('P' = ';') := by decide
    rw [h1]
    simp only [findSub, List.isPrefixOf_iff_prefix, List.cons_prefix_cons, hdec1, hdec2,
      false_and, if_false]
    rw [findSub_pair_skip 'P' ':' n _ hnP (by simp)]
    simp [findSub, hdec3]
    omega
  · exact hn1
  · exact hs1
  · rcases ht with rfl | rfl <;> simp
  · exact hb1
  · exact hb2

theorem secret_first_result (n s ssid password : List Char)
    (hn1 : ';' ∉ n) (hn2 : NUL ∉ n) (hs1 : ';' ∉ s) (hs2 : NUL ∉ s)
    (hsS : ¬ ['S', ':'] <:+: s)
    (hb1 : ssid.length = 64) (hb2 : password.length = 64) :
    parse_wifi_qr_code (['P', ':'] ++ s ++ [';', 'S', ':'] ++ n ++ [';']) ssid password =
      some ⟨true, n.take 63 ++ NUL :: ssid.drop (clampLen n.length + 1),
        s.take 63 ++ NUL :: password.drop (clampLen s.length + 1)⟩ := by
  have hc : cstr (['P', ':'] ++ s ++ [';', 'S', ':'] ++ n ++ [';']) =
      ['P', ':'] ++ s ++ [';', 'S', ':'] ++ n ++ [';'] := by
    apply cstr_eq_self
    simp only [List.mem_append, not_or]
    exact ⟨⟨⟨⟨by decide, hs2⟩, by decide⟩, hn2⟩, by decide⟩
  apply parse_of_fields _ ssid password (['P', ':'] ++ s ++ [';']) n []
    [] s ([';', 'S', ':'] ++ n ++ [';'])
  · rw [hc]; simp
  · rw [hc]
    have h1 : ['P', ':'] ++ s ++ [';', 'S', ':'] ++ n ++ [';']
        = 'P' :: ':' :: (s ++ (';' :: 'S' :: ':' :: (n ++ [';']))) := by simp
    have hdec1 : ¬ ('S' = 'P') := by decide
    have hdec2 : ¬ ('S' = ':') := by decide
    have hdec3 : ¬ ('S' = ';') := by decide
    rw [h1]
    simp only [findSub, List.isPrefixOf_iff_prefix, List.cons_prefix_cons, hdec1, hdec2,
      false_and, if_false]
    rw [findSub_pair_skip 'S' ':' s _ hsS (by simp)]
    simp [findSub, hdec3]
    omega
  · rw [hc]; simp
  · rw [hc]
    simp [findSub]
  · exact hn1
  · exact hs1
  · simp
  · exact hb1
  · exact hb2

theorem take_63_of_le {l : List Char} (h : l.length ≤ 63) : l.take 63 = l :=
  List.take_of_length_le h

/-- Claim C1.  For every name `n` and secret `s` of at most 63 characters each,
without `;` and without NUL, `n` not containing `P:`, and for both terminators
`t = ";"` and `t = ""`, the parser applied to `"S:" ++ n ++ ";P:" ++ s ++ t`
(with two 64-byte output buffers) returns `true` and leaves the strings `n` in
`ssid` and `s` in `password`. -/
theorem parse_name_first (n s t ssid password : List Char)
    (hn : n.length ≤ 63) (hs : s.length ≤ 63)
    (hn1 : ';' ∉ n) (hn2 : NUL ∉ n) (hs1 : ';' ∉ s) (hs2 : NUL ∉ s)
    (hnP : ¬ ['P', ':'] <:+: n) (ht : t = [';'] ∨ t = [])
    (hb1 : ssid.length = 64) (hb2 : password.length = 64) :
    ∃ r, parse_wifi_qr_code (['S', ':'] ++ n ++ [';', 'P', ':'] ++ s ++ t) ssid password = some r
      ∧ r.ok = true ∧ cstr r.ssid = n ∧ cstr r.password = s := by
  refine ⟨_, name_first_result n s t ssid password hn1 hn2 hs1 hs2 hnP ht hb1 hb2, rfl, ?_, ?_⟩
  · simp only [take_63_of_le hn]
    exact cstr_written _ _ hn2
  · simp only [take_63_of_le hs]
    exact cstr_written _ _ hs2

/-- Witness for claim C1: the three payloads `S:MyNet;P:Secret123;`,
`S:MyNet;P:Secret123` and `S:;P:;`. -/
theorem parse_name_first_witness :
    ("MyNet".toList.length ≤ 63 ∧ "Secret123".toList.length ≤ 63 ∧
      ';' ∉ "MyNet".toList ∧ NUL ∉ "MyNet".toList ∧
      ';' ∉ "Secret123".toList ∧ NUL ∉ "Secret123".toList ∧
      ¬ ['P', ':'] <:+: "MyNet".toList ∧ zeroBuf.length = 64) ∧
    (∃ r, parse_wifi_qr_code "S:MyNet;P:Secret123;".toList zeroBuf zeroBuf = some r
      ∧ r.ok = true ∧ cstr r.ssid = "MyNet".toList ∧ cstr r.password = "Secret123".toList) ∧
    (∃ r, parse_wifi_qr_code "S:MyNet;P:Secret123".toList zeroBuf zeroBuf = some r
      ∧ r.ok = true ∧ cstr r.ssid = "MyNet".toList ∧ cstr r.password = "Secret123".toList) ∧
    (∃ r, parse_wifi_qr_code "S:;P:;".toList zeroBuf zeroBuf = some r
      ∧ r.ok = true ∧ cstr r.ssid = [] ∧ cstr r.password = []) :=
  ⟨by decide,
   parse_name_first "MyNet".toList "Secret123".toList [';'] zeroBuf zeroBuf
      (by decide) (by decide) (by decide) (by decide) (by decide) (by decide) (by decide)
      (by decide) (by decide) (by decide),
   parse_name_first "MyNet".toList "Secret123".toList [] zeroBuf zeroBuf
      (by decide) (by decide) (by decide) (by decide) (by decide) (by decide) (by decide)
      (by decide) (by decide) (by decide),
   parse_name_first [] [] [';'] zeroBuf zeroBuf
      (by decide) (by decide) (by decide) (by decide) (by decide) (by decide) (by decide)
      (by decide) (by decide) (by decide)⟩

theorem findSub_iff_first {nd l : List Char} {i : Nat} (hnd : nd ≠ []) :
    findSub nd l = some i ↔ FirstOccurrenceAt nd l i := by
  rw [findSub_eq_some]
  unfold FirstOccurrenceAt
  constructor
  · rintro ⟨-, h2, h3⟩; exact ⟨h2, h3⟩
  · rintro ⟨h2, h3⟩
    refine ⟨?_, h2, h3⟩
    by_contra hlt
    rw [List.drop_of_length_le (by omega)] at h2
    exact hnd (List.prefix_nil.mp h2)

/-- Claim C4.  The markers may come in either order: for every name `n` and
secret `s` of at most 63 characters each, without `;` and without NUL, `s` not
containing `S:`, the parser applied to `"P:" ++ s ++ ";S:" ++ n ++ ";"` returns
`true` with `ssid = n` and `password = s`; and when `n` does not contain `P:`
this is the very result it gives for `"S:" ++ n ++ ";P:" ++ s ++ ";"`. -/
theorem parse_secret_first (n s ssid password : List Char)
    (hn : n.length ≤ 63) (hs : s.length ≤ 63)
    (hn1 : ';' ∉ n) (hn2 : NUL ∉ n) (hs1 : ';' ∉ s) (hs2 : NUL ∉ s)
    (hsS : ¬ ['S', ':'] <:+: s)
    (hb1 : ssid.length = 64) (hb2 : password.length = 64) :
    (∃ r, parse_wifi_qr_code (['P', ':'] ++ s ++ [';', 'S', ':'] ++ n ++ [';']) ssid password
        = some r ∧ r.ok = true ∧ cstr r.ssid = n ∧ cstr r.password = s) ∧
    (¬ ['P', ':'] <:+: n →
      parse_wifi_qr_code (['P', ':'] ++ s ++ [';', 'S', ':'] ++ n ++ [';']) ssid password =
        parse_wifi_qr_code (['S', ':'] ++ n ++ [';', 'P', ':'] ++ s ++ [';']) ssid password) := by
  have h := secret_first_result n s ssid password hn1 hn2 hs1 hs2 hsS hb1 hb2
  refine ⟨⟨_, h, rfl, ?_, ?_⟩, ?_⟩
  · simp only [take_63_of_le hn]
    exact cstr_written _ _ hn2
  · simp only [take_63_of_le hs]
    exact cstr_written _ _ hs2
  · intro hnP
    rw [h, name_first_result n s [';'] ssid password hn1 hn2 hs1 hs2 hnP (Or.inl rfl) hb1 hb2]

/-- Witness for claim C4: the payload `P:Secret123;S:MyNet;`. -/
theorem parse_secret_first_witness :
    ("MyNet".toList.length ≤ 63 ∧ "Secret123".toList.length ≤ 63 ∧
      ';' ∉ "MyNet".toList ∧ NUL ∉ "MyNet".toList ∧
      ';' ∉ "Secret123".toList ∧ NUL ∉ "Secret123".toList ∧
      ¬ ['S', ':'] <:+: "Secret123".toList ∧ zeroBuf.length = 64) ∧
    (∃ r, parse_wifi_qr_code "P:Secret123;S:MyNet;".toList zeroBuf zeroBuf = some r
        ∧ r.ok = true ∧ cstr r.ssid = "MyNet".toList ∧ cstr r.password = "Secret123".toList) ∧
    (¬ ['P', ':'] <:+: "MyNet".toList →
      parse_wifi_qr_code "P:Secret123;S:MyNet;".toList zeroBuf zeroBuf =
        parse_wifi_qr_code "S:MyNet;P:Secret123;".toList zeroBuf zeroBuf) :=
  ⟨by decide,
   parse_secret_first "MyNet".toList "Secret123".toList zeroBuf zeroBuf
    (by decide) (by decide) (by decide) (by decide) (by decide) (by decide) (by decide)
    (by decide) (by decide)⟩

/-- Claim C2.  The parser returns `false` exactly when the payload (the C
string at `qr_data`) does not contain `S:`, or does not contain `P:`, or has no
`;` at or after the position that follows the first occurrence of `S:`; in
every other case it returns `true`. -/
theorem parse_reject_iff (qr_data ssid password : List Char)
    (hb1 : ssid.length = 64) (hb2 : password.length = 64) :
    ∃ r, parse_wifi_qr_code qr_data ssid password = some r ∧
      (r.ok = false ↔
        (¬ ['S', ':'] <:+: cstr qr_data) ∨ (¬ ['P', ':'] <:+: cstr qr_data) ∨
          (∀ i, FirstOccurrenceAt ['S', ':'] (cstr qr_data) i →
            ';' ∉ (cstr qr_data).drop (i + 2))) ∧
      (r.ok = true ↔
        ¬ ((¬ ['S', ':'] <:+: cstr qr_data) ∨ (¬ ['P', ':'] <:+: cstr qr_data) ∨
          (∀ i, FirstOccurrenceAt ['S', ':'] (cstr qr_data) i →
            ';' ∉ (cstr qr_data).drop (i + 2)))) := by
  have key : ∃ r, parse_wifi_qr_code qr_data ssid password = some r ∧
      (r.ok = false ↔
        (¬ ['S', ':'] <:+: cstr qr_data) ∨ (¬ ['P', ':'] <:+: cstr qr_data) ∨
          (∀ i, FirstOccurrenceAt ['S', ':'] (cstr qr_data) i →
            ';' ∉ (cstr qr_data).drop (i + 2))) := by
    rw [parse_eq qr_data ssid password hb1 hb2]
    cases hs : findSub ['S', ':'] (cstr qr_data) with
    | none =>
      exact ⟨_, rfl, by simp [findSub_eq_none.mp hs]⟩
    | some s0 =>
      have hsI : ['S', ':'] <:+: cstr qr_data := by
        by_contra h
        rw [findSub_eq_none.mpr h] at hs
        exact Option.noConfusion hs
      have hfirst : ∀ i, FirstOccurrenceAt ['S', ':'] (cstr qr_data) i ↔ i = s0 := by
        intro i
        rw [← findSub_iff_first (by simp), hs]
        constructor
        · intro h; exact (Option.some.inj h).symm
        · intro h; rw [h]
      cases hp : findSub ['P', ':'] (cstr qr_data) with
      | none =>
        exact ⟨_, rfl, by simp [findSub_eq_none.mp hp]⟩
      | some p0 =>
        have hpI : ['P', ':'] <:+: cstr qr_data := by
          by_contra h
          rw [findSub_eq_none.mpr h] at hp
          exact Option.noConfusion hp
        dsimp only
        cases he : findChar ';' ((cstr qr_data).drop (s0 + 2)) with
        | none =>
          refine ⟨_, rfl, ?_⟩
          simp only [true_iff]
          right; right
          intro i hi
          rw [(hfirst i).mp hi]
          exact findChar_eq_none.mp he
        | some e =>
          refine ⟨_, rfl, ?_⟩
          simp only [hsI, hpI, not_true_eq_false, false_or, false_iff, Bool.true_eq_false]
          intro h
          have := findChar_eq_none.mpr (h s0 ((hfirst s0).mpr rfl))
          rw [he] at this
          exact Option.noConfusion this
  obtain ⟨r, h1, h2⟩ := key
  refine ⟨r, h1, h2, ?_⟩
  rw [← h2]
  cases r.ok <;> simp

/-- Witness for claim C2: the payload `hello world`, which has no marker and
is rejected. -/
theorem parse_reject_iff_witness :
    zeroBuf.length = 64 ∧
    (parse_wifi_qr_code "hello world".toList zeroBuf zeroBuf).map (fun r => r.ok)
      = some false ∧
    ∃ r, parse_wifi_qr_code "hello world".toList zeroBuf zeroBuf = some r ∧
      (r.ok = false ↔
        (¬ ['S', ':'] <:+: cstr "hello world".toList) ∨
        (¬ ['P', ':'] <:+: cstr "hello world".toList) ∨
          (∀ i, FirstOccurrenceAt ['S', ':'] (cstr "hello world".toList) i →
            ';' ∉ (cstr "hello world".toList).drop (i + 2))) ∧
      (r.ok = true ↔
        ¬ ((¬ ['S', ':'] <:+: cstr "hello world".toList) ∨
          (¬ ['P', ':'] <:+: cstr "hello world".toList) ∨
          (∀ i, FirstOccurrenceAt ['S', ':'] (cstr "hello world".toList) i →
            ';' ∉ (cstr "hello world".toList).drop (i + 2)))) :=
  ⟨by decide, by decide,
    parse_reject_iff "hello world".toList zeroBuf zeroBuf (by decide) (by decide)⟩

theorem dropWhile_ne_head (c : Char) (l : List Char) :
    l.dropWhile (fun x => x != c) = [] ∨ (l.dropWhile (fun x => x != c)).head? = some c := by
  induction l with
  | nil => simp
  | cons x l ih =>
    by_cases hx : x = c
    · right; simp [List.dropWhile_cons, hx]
    · have : (x != c) = true := by simpa using hx
      simpa [List.dropWhile_cons, this] using ih

theorem not_mem_takeWhile_ne (c : Char) (l : List Char) :
    c ∉ l.takeWhile (fun x => x != c) := by
  intro h
  have := List.mem_takeWhile_imp h
  simp at this

theorem not_mem_fieldAt (payload : List Char) (k : Nat) (h : NUL ∉ payload) :
    NUL ∉ fieldAt payload k := by
  intro hm
  exact h (List.mem_of_mem_drop ((List.takeWhile_sublist _).subset hm))

/-- Claim C3.  With 64-byte output buffers every write of the parser stays
inside them (the call returns a result and the buffers keep their size), and
when it accepts a payload, the returned name is the first `min L 63`
characters of the name field (the text between the first `S:` and the next
`;`, of length `L`) and the returned secret is the first `min M 63` characters
of the secret field (the text after the first `P:` up to the next `;` or to
the end, of length `M`); so both have at most 63 characters and a field of at
most 63 characters is returned whole. -/
theorem parse_truncates (qr_data ssid password : List Char)
    (hb1 : ssid.length = 64) (hb2 : password.length = 64) :
    ∃ r, parse_wifi_qr_code qr_data ssid password = some r ∧
      r.ssid.length = 64 ∧ r.password.length = 64 ∧
      (r.ok = true →
        ∃ i name rest j secret rest2,
          FirstOccurrenceAt ['S', ':'] (cstr qr_data) i ∧
          (cstr qr_data).drop (i + 2) = name ++ ';' :: rest ∧ ';' ∉ name ∧
          FirstOccurrenceAt ['P', ':'] (cstr qr_data) j ∧
          (cstr qr_data).drop (j + 2) = secret ++ rest2 ∧ ';' ∉ secret ∧
          (rest2 = [] ∨ rest2.head? = some ';') ∧
          cstr r.ssid = name.take (min name.length 63) ∧
          cstr r.password = secret.take (min secret.length 63) ∧
          (cstr r.ssid).length ≤ 63 ∧ (cstr r.password).length ≤ 63 ∧
          (name.length ≤ 63 → cstr r.ssid = name) ∧
          (secret.length ≤ 63 → cstr r.password = secret)) := by
  rw [parse_eq qr_data ssid password hb1 hb2]
  cases hs : findSub ['S', ':'] (cstr qr_data) with
  | none => exact ⟨_, rfl, hb1, hb2, by simp⟩
  | some s0 =>
    cases hp : findSub ['P', ':'] (cstr qr_data) with
    | none => exact ⟨_, rfl, hb1, hb2, by simp⟩
    | some p0 =>
      dsimp only
      cases he : findChar ';' ((cstr qr_data).drop (s0 + 2)) with
      | none => exact ⟨_, rfl, hb1, hb2, by simp⟩
      | some e =>
        have hN := not_mem_cstr qr_data
        have hN1 := not_mem_fieldAt (cstr qr_data) (s0 + 2) hN
        have hN2 := not_mem_fieldAt (cstr qr_data) (p0 + 2) hN
        have hN1t : NUL ∉ (fieldAt (cstr qr_data) (s0 + 2)).take 63 :=
          fun h => hN1 (List.mem_of_mem_take h)
        have hN2t : NUL ∉ (fieldAt (cstr qr_data) (p0 + 2)).take 63 :=
          fun h => hN2 (List.mem_of_mem_take h)
        have htake : ∀ l : List Char, l.take (min l.length 63) = l.take 63 := by
          intro l
          by_cases h : l.length ≤ 63
          · rw [Nat.min_eq_left h, List.take_of_length_le (Nat.le_refl _),
              List.take_of_length_le h]
          · rw [Nat.min_eq_right (by omega)]
        refine ⟨_, rfl, ?_, ?_, fun _ => ?_⟩
        · simp only [List.length_append, List.length_take, List.length_cons, List.length_drop,
            clampLen_eq_min, hb1]
          omega
        · simp only [List.length_append, List.length_take, List.length_cons, List.length_drop,
            clampLen_eq_min, hb2]
          omega
        · obtain ⟨post, hpost, -, -⟩ := findChar_eq_some he
          have he2 := findChar_some_takeWhile he
          refine ⟨s0, fieldAt (cstr qr_data) (s0 + 2), post, p0, fieldAt (cstr qr_data) (p0 + 2),
            ((cstr qr_data).drop (p0 + 2)).dropWhile (fun x => x != ';'),
            (findSub_iff_first (by simp)).mp hs, ?_, not_mem_takeWhile_ne _ _,
            (findSub_iff_first (by simp)).mp hp,
            (List.takeWhile_append_dropWhile _ _).symm, not_mem_takeWhile_ne _ _,
            dropWhile_ne_head _ _, ?_, ?_, ?_, ?_, ?_, ?_⟩
          · have : fieldAt (cstr qr_data) (s0 + 2) = ((cstr qr_data).drop (s0 + 2)).take e := by
              unfold fieldAt
              rw [he2]
              have hpre := List.takeWhile_prefix (fun x => x != ';')
                (l := (cstr qr_data).drop (s0 + 2))
              exact (List.prefix_iff_eq_take.mp hpre)
            rw [this]
            exact hpost
          · rw [htake]; exact cstr_written _ _ hN1t
          · rw [htake]; exact cstr_written _ _ hN2t
          · rw [cstr_written _ _ hN1t, List.length_take]; omega
          · rw [cstr_written _ _ hN2t, List.length_take]; omega
          · intro hle
            rw [cstr_written _ _ hN1t, List.take_of_length_le hle]
          · intro hle
            rw [cstr_written _ _ hN2t, List.take_of_length_le hle]

set_option maxRecDepth 100000 in
theorem longName_eval :
    (parse_wifi_qr_code longNamePayload zeroBuf zeroBuf).map
        (fun r => (r.ok, cstr r.ssid, cstr r.password))
      = some (true, List.replicate 63 'a', ['x']) := by
  decide

/-- Witness for claim C3: a name field of 100 characters is cut to 63 and the
call still returns `true`. -/
theorem parse_truncates_witness :
    zeroBuf.length = 64 ∧
    (parse_wifi_qr_code longNamePayload zeroBuf zeroBuf).map
        (fun r => (r.ok, cstr r.ssid, cstr r.password))
      = some (true, List.replicate 63 'a', ['x']) ∧
    ∃ r, parse_wifi_qr_code longNamePayload zeroBuf zeroBuf = some r ∧
      r.ssid.length = 64 ∧ r.password.length = 64 ∧
      (r.ok = true →
        ∃ i name rest j secret rest2,
          FirstOccurrenceAt ['S', ':'] (cstr longNamePayload) i ∧
          (cstr longNamePayload).drop (i + 2) = name ++ ';' :: rest ∧ ';' ∉ name ∧
          FirstOccurrenceAt ['P', ':'] (cstr longNamePayload) j ∧
          (cstr longNamePayload).drop (j + 2) = secret ++ rest2 ∧ ';' ∉ secret ∧
          (rest2 = [] ∨ rest2.head? = some ';') ∧
          cstr r.ssid = name.take (min name.length 63) ∧
          cstr r.password = secret.take (min secret.length 63) ∧
          (cstr r.ssid).length ≤ 63 ∧ (cstr r.password).length ≤ 63 ∧
          (name.length ≤ 63 → cstr r.ssid = name) ∧
          (secret.length ≤ 63 → cstr r.password = secret)) :=
  ⟨by decide, longName_eval,
    parse_truncates longNamePayload zeroBuf zeroBuf (by decide) (by decide)⟩

/-! ### The wait loop -/

theorem wait_loop_stop {r : Nat → Bool} {a : Nat} (h : r a = true ∨ 100 ≤ a) :
    wait_loop r a = a := by
  rw [wait_loop]
  have : ¬ (r a = false ∧ a < 100) := by
    rintro ⟨h1, h2⟩
    rcases h with h | h
    · rw [h1] at h; exact Bool.noConfusion h
    · omega
  rw [dif_neg this]

theorem wait_loop_step {r : Nat → Bool} {a : Nat} (h1 : r a = false) (h2 : a < 100) :
    wait_loop r a = wait_loop r (a + 1) := by
  rw [wait_loop, dif_pos ⟨h1, h2⟩]

theorem wait_loop_first (r : Nat → Bool) (k : Nat) (hk : k ≤ 100) (hr : r k = true) :
    ∀ d a, a + d = k → (∀ i, a ≤ i → i < k → r i = false) → wait_loop r a = k := by
  intro d
  induction d with
  | zero =>
    intro a ha _
    have : a = k := by omega
    subst this
    exact wait_loop_stop (Or.inl hr)
  | succ d ih =>
    intro a ha hf
    rw [wait_loop_step (hf a (Nat.le_refl _) (by omega)) (by omega)]
    exact ih (a + 1) (by omega) (fun i h1 h2 => hf i (by omega) h2)

theorem wait_loop_never (r : Nat → Bool) :
    ∀ d a, a + d = 100 → (∀ i, a ≤ i → i < 100 → r i = false) → wait_loop r a = 100 := by
  intro d
  induction d with
  | zero =>
    intro a ha _
    have : a = 100 := by omega
    subst this
    exact wait_loop_stop (Or.inr (Nat.le_refl _))
  | succ d ih =>
    intro a ha hf
    rw [wait_loop_step (hf a (Nat.le_refl _) (by omega)) (by omega)]
    exact ih (a + 1) (by omega) (fun i h1 h2 => hf i (by omega) h2)

theorem wait_loop_le (r : Nat → Bool) : ∀ d a, a + d = 100 → wait_loop r a ≤ 100 := by
  intro d
  induction d with
  | zero =>
    intro a ha
    rw [wait_loop_stop (Or.inr (by omega))]; omega
  | succ d ih =>
    intro a ha
    by_cases h : r a = true
    · rw [wait_loop_stop (Or.inl h)]; omega
    · rw [wait_loop_step (by simpa using h) (by omega)]
      exact ih (a + 1) (by omega)

/-- Claim C8.  For every sequence of values of the connected flag at the
successive reads (poll `k` is the evaluation of the loop condition made after
`k` delays, the check after the loop is the next read), the wait of
`processing_task` performs at most 100 delays of 100 ms each; if the flag is
never read as true it performs exactly 100 delays and ends TimedOut
(`connected = false`); if it is first read as true at poll `k ≤ 100` it
performs exactly `k` delays and, the flag still being true at the check after
the loop, ends Connected. -/
theorem await_connection_bounded (wifi_connected : Nat → Bool) :
    (await_connection wifi_connected).delays ≤ 100 ∧
    (await_connection wifi_connected).trace =
      List.replicate (await_connection wifi_connected).delays (Call.vTaskDelay 100) ∧
    ((∀ k, k ≤ 101 → wifi_connected k = false) →
      (await_connection wifi_connected).delays = 100 ∧
      (await_connection wifi_connected).connected = false) ∧
    (∀ k, k ≤ 100 → (∀ i, i < k → wifi_connected i = false) → wifi_connected k = true →
      (await_connection wifi_connected).delays = k ∧
      (wifi_connected (k + 1) = true → (await_connection wifi_connected).connected = true)) := by
  refine ⟨wait_loop_le _ 100 0 rfl, rfl, ?_, ?_⟩
  · intro h
    have h100 := wait_loop_never wifi_connected 100 0 rfl (fun i _ hi => h i (by omega))
    exact ⟨h100, by simp only [await_connection, h100]; exact h 101 (Nat.le_refl _)⟩
  · intro k hk hf hr
    have hk' := wait_loop_first wifi_connected k hk hr k 0 (by omega) (fun i _ hi => hf i hi)
    exact ⟨hk', fun h => by simp only [await_connection, hk']; exact h⟩

/-! ### The frame queue -/

theorem queue_wait_never (old item : Frame) (space : Nat → Bool) :
    ∀ n e, (∀ t, e ≤ t → t < e + n → space t = false) →
      queue_wait old item space n e = ⟨false, some old, e + n⟩ := by
  intro n
  induction n with
  | zero => intro e _; rfl
  | succ n ih =>
    intro e h
    have h0 := h e (Nat.le_refl _) (by omega)
    simp only [queue_wait, h0]
    rw [ih (e + 1) (fun t h1 h2 => h t (by omega) (by omega))]
    simp only [Bool.false_eq_true, if_false, SendOutcome.mk.injEq, true_and]
    omega

theorem queue_wait_first (old item : Frame) (space : Nat → Bool) (t : Nat)
    (ht : space t = true) :
    ∀ n e, e ≤ t → t < e + n → (∀ u, e ≤ u → u < t → space u = false) →
      queue_wait old item space n e = ⟨true, some item, t⟩ := by
  intro n
  induction n with
  | zero => intro e h1 h2; omega
  | succ n ih =>
    intro e h1 h2 h
    by_cases he : e = t
    · subst he
      simp only [queue_wait, ht, if_true]
    · have h0 := h e (Nat.le_refl _) (by omega)
      simp only [queue_wait, h0, Bool.false_eq_true, if_false]
      exact ih (e + 1) (by omega) (by omega) (fun u hu1 hu2 => h u (by omega) hu2)

theorem queue_wait_le (old item : Frame) (space : Nat → Bool) :
    ∀ n e, (queue_wait old item space n e).waited ≤ e + n := by
  intro n
  induction n with
  | zero => intro e; simp [queue_wait]
  | succ n ih =>
    intro e
    simp only [queue_wait]
    split_ifs
    · simp
    · have := ih (e + 1); omega

/-- Claim C6 fails as stated.  At a tick rate of 100 Hz the deposit of
`main_task` is made with a budget of 10 ticks, not zero: with frame 1 in the
queue and the receiver emptying it during tick 3, the deposit of frame 2 stays
blocked for 3 ticks and is then delivered; it does not fail at once. -/
theorem deposit_blocks_counterexample :
    pdMS_TO_TICKS 100 100 = 10 ∧
    main_task_iteration 100 Globals.init (some 1) (some 2) (fun t => decide (t = 3)) =
      ⟨[Call.esp_camera_fb_get (some 2), Call.xQueueSend 2 100 true, Call.vTaskDelay 20],
        false, some 2, 3⟩ := by
  decide

/-- Claim C6, amended.  The deposit of `main_task` into the occupied queue
waits for at most `pdMS_TO_TICKS(100)` ticks.  When the queue stays occupied
for the whole budget the deposit fails, the frame in the queue is unchanged
and the capture loop releases the rejected frame (one `esp_camera_fb_return`);
when the receiver empties the queue at tick `t` within the budget the frame is
delivered after `t` ticks and is not released by the capture loop. -/
theorem deposit_bounded_wait (configTICK_RATE_HZ : Nat) (g : Globals) (old fb : Frame)
    (space : Nat → Bool) (hg : g.camera_stopped = false) :
    (main_task_iteration configTICK_RATE_HZ g (some old) (some fb) space).waited
      ≤ pdMS_TO_TICKS configTICK_RATE_HZ 100 ∧
    ((∀ t, t < pdMS_TO_TICKS configTICK_RATE_HZ 100 → space t = false) →
      main_task_iteration configTICK_RATE_HZ g (some old) (some fb) space =
        ⟨[Call.esp_camera_fb_get (some fb), Call.xQueueSend fb 100 false,
            Call.esp_camera_fb_return fb, Call.vTaskDelay 20],
          false, some old, pdMS_TO_TICKS configTICK_RATE_HZ 100⟩) ∧
    (∀ t, t < pdMS_TO_TICKS configTICK_RATE_HZ 100 → (∀ u, u < t → space u = false) →
      space t = true →
      main_task_iteration configTICK_RATE_HZ g (some old) (some fb) space =
        ⟨[Call.esp_camera_fb_get (some fb), Call.xQueueSend fb 100 true, Call.vTaskDelay 20],
          false, some fb, t⟩) := by
  refine ⟨?_, ?_, ?_⟩
  · have := queue_wait_le old fb space (pdMS_TO_TICKS configTICK_RATE_HZ 100) 0
    simp only [main_task_iteration, hg, Bool.false_eq_true, if_false, xQueueSend]
    split_ifs <;> simpa using this
  · intro h
    have := queue_wait_never old fb space (pdMS_TO_TICKS configTICK_RATE_HZ 100) 0
      (fun t _ h2 => h t (by omega))
    simp [main_task_iteration, hg, xQueueSend, this]
  · intro t ht hf hs
    have := queue_wait_first old fb space t hs (pdMS_TO_TICKS configTICK_RATE_HZ 100) 0
      (Nat.zero_le _) (by omega) (fun u _ hu => hf u hu)
    simp [main_task_iteration, hg, xQueueSend, this]

/-- Witness for claim C6 as amended: at 100 Hz, frame 1 stays in the queue for
the whole budget of 10 ticks and the deposit of frame 2 is rejected. -/
theorem deposit_bounded_wait_witness :
    Globals.init.camera_stopped = false ∧
    (main_task_iteration 100 Globals.init (some 1) (some 2) (fun _ => false)).waited
      ≤ pdMS_TO_TICKS 100 100 ∧
    ((∀ t, t < pdMS_TO_TICKS 100 100 → (fun _ => false) t = false) →
      main_task_iteration 100 Globals.init (some 1) (some 2) (fun _ => false) =
        ⟨[Call.esp_camera_fb_get (some 2), Call.xQueueSend 2 100 false,
            Call.esp_camera_fb_return 2, Call.vTaskDelay 20],
          false, some 1, pdMS_TO_TICKS 100 100⟩) ∧
    (∀ t, t < pdMS_TO_TICKS 100 100 → (∀ u, u < t → (fun _ => false) u = false) →
      (fun _ => false) t = true →
      main_task_iteration 100 Globals.init (some 1) (some 2) (fun _ => false) =
        ⟨[Call.esp_camera_fb_get (some 2), Call.xQueueSend 2 100 true, Call.vTaskDelay 20],
          false, some 2, t⟩) :=
  ⟨rfl, deposit_bounded_wait 100 Globals.init 1 2 (fun _ => false) rfl⟩

/-! ### The decode loop -/

theorem parse_total (payload : List Char) :
    ∃ r, parse_wifi_qr_code payload zeroBuf zeroBuf = some r := by
  rw [parse_eq payload zeroBuf zeroBuf (by decide) (by decide)]
  cases findSub ['S', ':'] (cstr payload) with
  | none => exact ⟨_, rfl⟩
  | some s0 =>
    cases findSub ['P', ':'] (cstr payload) with
    | none => exact ⟨_, rfl⟩
    | some p0 =>
      dsimp only
      cases findChar ';' ((cstr payload).drop (s0 + 2)) with
      | none => exact ⟨_, rfl⟩
      | some e => exact ⟨_, rfl⟩

theorem processing_task_for_cons (wifi : Nat → Nat → Bool) (g : Globals) (i : Nat)
    (c : Option (List Char)) (rest : List (Option (List Char))) :
    processing_task_for wifi g i (c :: rest) =
      if stopsHere wifi i c then
        some ⟨visit_calls wifi i c ++ [Call.esp_camera_deinit, Call.vTaskDelete],
          { g with camera_stopped := true }, true⟩
      else (processing_task_for wifi g (i + 1) rest).map (FrameOutcome.after (visit_calls wifi i c)) := by
  cases c with
  | none => simp [processing_task_for, stopsHere, visit_calls]
  | some payload =>
    obtain ⟨r, hr⟩ := parse_total payload
    cases hok : r.ok with
    | false => simp [processing_task_for, stopsHere, visit_calls, credentialOf, hr, hok]
    | true =>
      cases hw : (await_connection (wifi i)).connected with
      | false => simp [processing_task_for, stopsHere, visit_calls, credentialOf, hr, hok, hw, connect_to_wifi]
      | true => simp [processing_task_for, stopsHere, visit_calls, credentialOf, hr, hok, hw, connect_to_wifi]

theorem processing_task_for_rec (wifi : Nat → Nat → Bool) (g : Globals)
    (P : Nat → List (Option (List Char)) → FrameOutcome → Prop)
    (hnil : ∀ i, P i [] ⟨[], g, false⟩)
    (hstop : ∀ i c rest, stopsHere wifi i c = true →
      P i (c :: rest) ⟨visit_calls wifi i c ++ [Call.esp_camera_deinit, Call.vTaskDelete],
        { g with camera_stopped := true }, true⟩)
    (hskip : ∀ i c rest o, stopsHere wifi i c = false →
      processing_task_for wifi g (i + 1) rest = some o → P (i + 1) rest o →
      P i (c :: rest) (o.after (visit_calls wifi i c))) :
    ∀ cs i, ∃ o, processing_task_for wifi g i cs = some o ∧ P i cs o := by
  intro cs
  induction cs with
  | nil => intro i; exact ⟨_, rfl, hnil i⟩
  | cons c rest ih =>
    intro i
    rw [processing_task_for_cons]
    cases hs : stopsHere wifi i c with
    | true => exact ⟨_, by simp, hstop i c rest hs⟩
    | false =>
      obtain ⟨o, ho, hP⟩ := ih (i + 1)
      exact ⟨_, by simp [ho], hskip i c rest o hs ho hP⟩

theorem visitedFrom_nil (wifi : Nat → Nat → Bool) (i j : Nat) : ¬ visitedFrom wifi i [] j := by
  rintro ⟨-, h, -⟩
  simp at h

theorem visitedFrom_cons_stop {wifi : Nat → Nat → Bool} {i : Nat} {c : Option (List Char)}
    (rest : List (Option (List Char))) (j : Nat) (hs : stopsHere wifi i c = true) :
    visitedFrom wifi i (c :: rest) j ↔ j = i := by
  constructor
  · rintro ⟨h1, -, h3⟩
    by_contra hne
    have := h3 0 (by omega)
    simp [hs] at this
  · rintro rfl
    exact ⟨Nat.le_refl _, by simp, fun k hk => by omega⟩

theorem visitedFrom_cons_skip {wifi : Nat → Nat → Bool} {i : Nat} {c : Option (List Char)}
    (rest : List (Option (List Char))) (j : Nat) (hs : stopsHere wifi i c = false) :
    visitedFrom wifi i (c :: rest) j ↔ j = i ∨ visitedFrom wifi (i + 1) rest j := by
  constructor
  · rintro ⟨h1, h2, h3⟩
    by_cases hji : j = i
    · exact Or.inl hji
    · right
      refine ⟨by omega, ?_, ?_⟩
      · simp only [List.length_cons] at h2; omega
      · intro k hk
        have := h3 (k + 1) (by omega)
        simp only [List.getD_cons_succ] at this
        rw [show i + 1 + k = i + (k + 1) by omega]
        exact this
  · rintro (rfl | ⟨h1, h2, h3⟩)
    · exact ⟨Nat.le_refl _, by simp, fun k hk => by omega⟩
    · refine ⟨by omega, by simp only [List.length_cons]; omega, ?_⟩
      intro k hk
      cases k with
      | zero => simpa using hs
      | succ k =>
        have := h3 k (by omega)
        simp only [List.getD_cons_succ]
        rw [show i + (k + 1) = i + 1 + k by omega]
        exact this

theorem visited_iff_from (wifi : Nat → Nat → Bool) (codes : List (Option (List Char))) (j : Nat) :
    visited wifi codes j ↔ visitedFrom wifi 0 codes j := by
  simp [visited, visitedFrom]

theorem after_trace (calls : List Call) (o : FrameOutcome) :
    (o.after calls).trace = calls ++ o.trace := rfl

theorem processing_task_for_countP (wifi : Nat → Nat → Bool) (g : Globals) (f : Nat → Call → Bool)
    (m : Option (List Char) → Bool)
    (hv : ∀ i j c, (visit_calls wifi i c).countP (f j) = if j = i ∧ m c = true then 1 else 0)
    (hd : ∀ j, f j Call.esp_camera_deinit = false) (ht : ∀ j, f j Call.vTaskDelete = false) :
    ∀ cs i, ∃ o, processing_task_for wifi g i cs = some o ∧
      ∀ j, o.trace.countP (f j) =
        if visitedFrom wifi i cs j ∧ m (cs.getD (j - i) none) = true then 1 else 0 := by
  apply processing_task_for_rec wifi g
    (fun i cs o => ∀ j, o.trace.countP (f j) =
        if visitedFrom wifi i cs j ∧ m (cs.getD (j - i) none) = true then 1 else 0)
  · intro i j
    simp [visitedFrom_nil]
  · intro i c rest hs j
    simp only [List.countP_append, hv, List.countP_cons, hd, ht, List.countP_nil,
      visitedFrom_cons_stop rest j hs]
    by_cases hji : j = i
    · subst hji; simp
    · simp [hji]
  · intro i c rest o hs _ ih j
    rw [after_trace, List.countP_append, hv, ih j]
    simp only [visitedFrom_cons_skip rest j hs]
    by_cases hji : j = i
    · subst hji
      have : ¬ visitedFrom wifi (j + 1) rest j := fun h => by have := h.1; omega
      simp [this]
    · by_cases hvis : visitedFrom wifi (i + 1) rest j
      · have hlt : i + 1 ≤ j := hvis.1
        have : j - i = (j - (i + 1)) + 1 := by omega
        simp [hji, hvis, this]
      · simp [hji, hvis]

theorem count_decode_visit (wifi : Nat → Nat → Bool) (i j : Nat) (c : Option (List Char)) :
    (visit_calls wifi i c).countP (fun x => x == Call.quirc_decode j) =
      if j = i ∧ true = true then 1 else 0 := by
  have hrep : ∀ n, (List.replicate n (Call.vTaskDelay 100)).countP
      (fun x => x == Call.quirc_decode j) = 0 := by
    intro n; simp [List.countP_replicate]
  have hij : (i = j) = (j = i) := propext ⟨Eq.symm, Eq.symm⟩
  cases c with
  | none => simp [visit_calls, List.countP_cons, hij]
  | some p =>
    cases h : credentialOf p with
    | none => simp [visit_calls, h, List.countP_cons, hij]
    | some sp =>
      simp [visit_calls, h, List.countP_cons, hij, WaitOutcome.trace, List.countP_append, hrep]

theorem count_parse_visit (wifi : Nat → Nat → Bool) (i j : Nat) (c : Option (List Char)) :
    (visit_calls wifi i c).countP (fun x => x == Call.parse_wifi_qr_code j) =
      if j = i ∧ c.isSome = true then 1 else 0 := by
  have hrep : ∀ n, (List.replicate n (Call.vTaskDelay 100)).countP
      (fun x => x == Call.parse_wifi_qr_code j) = 0 := by
    intro n; simp [List.countP_replicate]
  have hij : (i = j) = (j = i) := propext ⟨Eq.symm, Eq.symm⟩
  cases c with
  | none => simp [visit_calls, List.countP_cons]
  | some p =>
    cases h : credentialOf p with
    | none => simp [visit_calls, h, List.countP_cons, hij]
    | some sp =>
      simp [visit_calls, h, List.countP_cons, hij, WaitOutcome.trace, List.countP_append, hrep]

theorem count_connect_visit (wifi : Nat → Nat → Bool) (i j : Nat) (c : Option (List Char)) :
    (visit_calls wifi i c).countP (Call.isConnect j) =
      if j = i ∧ (c.bind credentialOf).isSome = true then 1 else 0 := by
  have hrep : ∀ n, (List.replicate n (Call.vTaskDelay 100)).countP (Call.isConnect j) = 0 := by
    intro n; simp [List.countP_replicate, Call.isConnect]
  have hij : (i = j) = (j = i) := propext ⟨Eq.symm, Eq.symm⟩
  cases c with
  | none => simp [visit_calls, List.countP_cons, Call.isConnect]
  | some p =>
    cases h : credentialOf p with
    | none => simp [visit_calls, h, List.countP_cons, Call.isConnect]
    | some sp =>
      simp [visit_calls, h, List.countP_cons, hij, WaitOutcome.trace, List.countP_append, hrep,
        Call.isConnect]

theorem processing_task_frame_countP (fb : Frame) (codes : List (Option (List Char)))
    (wifi : Nat → Nat → Bool) (g : Globals) (f : Nat → Call → Bool)
    (m : Option (List Char) → Bool)
    (hv : ∀ i j c, (visit_calls wifi i c).countP (f j) = if j = i ∧ m c = true then 1 else 0)
    (hd : ∀ j, f j Call.esp_camera_deinit = false) (ht : ∀ j, f j Call.vTaskDelete = false)
    (hr : ∀ j, f j (Call.esp_camera_fb_return fb) = false)
    (o : FrameOutcome) (ho : processing_task_frame fb codes wifi g = some o) (j : Nat) :
    o.trace.countP (f j) =
      if visited wifi codes j ∧ m (codes.getD j none) = true then 1 else 0 := by
  obtain ⟨o', ho', h⟩ := processing_task_for_countP wifi g f m hv hd ht codes 0
  simp only [processing_task_frame, ho', Option.map_some', Option.some.injEq] at ho
  subst ho
  have hj := h j
  rw [Nat.sub_zero] at hj
  simp only [visited_iff_from]
  rw [← hj]
  by_cases hdel : o'.deleted = true
  · rw [if_pos hdel]
  · rw [if_neg hdel]
    simp [List.countP_append, List.countP_cons, hr]

theorem credentialOf_home :
    credentialOf homePayload =
      some (['H', 'o', 'm', 'e'], ['h', 'u', 'n', 't', 'e', 'r', '2']) := by
  decide

theorem await_never : await_connection (fun _ => false) = ⟨100, false⟩ := by
  have h := wait_loop_never (fun _ => false) 100 0 rfl (fun _ _ _ => rfl)
  simp only [await_connection, h]

theorem await_at_once : await_connection (fun _ => true) = ⟨0, true⟩ := by
  have h : wait_loop (fun _ => true) 0 = 0 := wait_loop_stop (Or.inl rfl)
  simp only [await_connection, h]

theorem processing_task_for_nil (wifi : Nat → Nat → Bool) (g : Globals) (i : Nat) :
    processing_task_for wifi g i [] = some ⟨[], g, false⟩ := by
  simp only [processing_task_for]

theorem visit_home_timeout (i : Nat) :
    visit_calls (fun _ _ => false) i (some homePayload) =
      [Call.quirc_decode i, Call.parse_wifi_qr_code i,
        Call.connect_to_wifi i ['H', 'o', 'm', 'e'] ['h', 'u', 'n', 't', 'e', 'r', '2']]
      ++ List.replicate 100 (Call.vTaskDelay 100) := by
  simp only [visit_calls, credentialOf_home, await_never, WaitOutcome.trace]

theorem stops_home_timeout (i : Nat) :
    stopsHere (fun _ _ => false) i (some homePayload) = false := by
  simp only [stopsHere, await_never, Bool.and_false]

/-- Claim C7 fails as stated.  A frame with two codes that both carry the
credential `S:Home;P:hunter2;`, and a connected flag that stays false: after
the first attempt has timed out (100 delays) the second code is decoded and
parsed and `connect_to_wifi` is called a second time. -/
theorem timed_out_attempt_continues :
    processing_task_frame 7 [some homePayload, some homePayload] (fun _ _ => false)
        Globals.init =
      some ⟨[Call.quirc_decode 0, Call.parse_wifi_qr_code 0,
              Call.connect_to_wifi 0 ['H', 'o', 'm', 'e'] ['h', 'u', 'n', 't', 'e', 'r', '2']]
            ++ List.replicate 100 (Call.vTaskDelay 100) ++
            ([Call.quirc_decode 1, Call.parse_wifi_qr_code 1,
              Call.connect_to_wifi 1 ['H', 'o', 'm', 'e'] ['h', 'u', 'n', 't', 'e', 'r', '2']]
            ++ List.replicate 100 (Call.vTaskDelay 100)) ++
            [Call.esp_camera_fb_return 7],
          Globals.init, false⟩ := by
  simp only [processing_task_frame, processing_task_for_cons, stops_home_timeout,
    visit_home_timeout, processing_task_for_nil, Option.map_some', FrameOutcome.after, Bool.false_eq_true, if_false,
    List.append_nil]

/-- Claim C5 at its failing input.  A frame with one code carrying
`S:Home;P:hunter2;` and a connected flag that is true from the first read on:
`processing_task` deinitialises the camera, sets `camera_stopped` and deletes
itself; the frame it received is never passed to `esp_camera_fb_return`. -/
theorem connected_frame_not_released :
    processing_task_frame 7 [some homePayload] (fun _ _ => true) Globals.init =
      some ⟨[Call.quirc_decode 0, Call.parse_wifi_qr_code 0,
              Call.connect_to_wifi 0 ['H', 'o', 'm', 'e'] ['h', 'u', 'n', 't', 'e', 'r', '2'],
              Call.esp_camera_deinit, Call.vTaskDelete],
          ⟨false, true⟩, true⟩ ∧
    Call.esp_camera_fb_return 7 ∉
      [Call.quirc_decode 0, Call.parse_wifi_qr_code 0,
        Call.connect_to_wifi 0 ['H', 'o', 'm', 'e'] ['h', 'u', 'n', 't', 'e', 'r', '2'],
        Call.esp_camera_deinit, Call.vTaskDelete] := by
  refine ⟨?_, by decide⟩
  simp [processing_task_frame, processing_task_for_cons, stopsHere, visit_calls,
    credentialOf_home, await_at_once, WaitOutcome.trace, Globals.init]

/-- Claim C7, amended.  Only an attempt that ends Connected stops the
processing of the frame.  Code `j` is decoded exactly once when no attempt for
an earlier code of the frame has ended Connected, and not at all otherwise;
under the same condition it is parsed exactly once when it was decoded without
error, and `connect_to_wifi` is called exactly once for it when its payload
parses as a credential.  In particular an attempt that ends TimedOut is
followed by the remaining codes. -/
theorem processing_task_frame_visits (fb : Frame) (codes : List (Option (List Char)))
    (wifi : Nat → Nat → Bool) (g : Globals) :
    ∃ o, processing_task_frame fb codes wifi g = some o ∧ ∀ j,
      o.trace.count (Call.quirc_decode j) = (if visited wifi codes j then 1 else 0) ∧
      o.trace.count (Call.parse_wifi_qr_code j) =
        (if visited wifi codes j ∧ (codes.getD j none).isSome = true then 1 else 0) ∧
      o.trace.countP (Call.isConnect j) =
        (if visited wifi codes j ∧ ((codes.getD j none).bind credentialOf).isSome = true
          then 1 else 0) := by
  obtain ⟨o', ho'⟩ : ∃ o', processing_task_for wifi g 0 codes = some o' := by
    obtain ⟨o', h, -⟩ := processing_task_for_rec wifi g (fun _ _ _ => True) (fun _ => trivial)
      (fun _ _ _ _ => trivial) (fun _ _ _ _ _ _ _ => trivial) codes 0
    exact ⟨o', h⟩
  have ho : processing_task_frame fb codes wifi g = some
      (if o'.deleted then o' else { o' with trace := o'.trace ++ [Call.esp_camera_fb_return fb] }) := by
    simp [processing_task_frame, ho']
  refine ⟨_, ho, fun j => ⟨?_, ?_, ?_⟩⟩
  · have := processing_task_frame_countP fb codes wifi g (fun j x => x == Call.quirc_decode j)
      (fun _ => true) (count_decode_visit wifi) (fun _ => by simp) (fun _ => by simp)
      (fun _ => by simp) _ ho j
    simpa [List.count] using this
  · exact processing_task_frame_countP fb codes wifi g (fun j x => x == Call.parse_wifi_qr_code j)
      (fun c => c.isSome) (count_parse_visit wifi) (fun _ => by simp) (fun _ => by simp)
      (fun _ => by simp) _ ho j
  · exact processing_task_frame_countP fb codes wifi g Call.isConnect
      (fun c => (c.bind credentialOf).isSome) (count_connect_visit wifi) (fun _ => rfl)
      (fun _ => rfl) (fun _ => rfl) _ ho j

theorem not_return_mem_visit (wifi : Nat → Nat → Bool) (i : Nat) (c : Option (List Char))
    (fb : Frame) : Call.esp_camera_fb_return fb ∉ visit_calls wifi i c := by
  cases c with
  | none => simp [visit_calls]
  | some p =>
    cases h : credentialOf p with
    | none => simp [visit_calls, h]
    | some sp => simp [visit_calls, h, WaitOutcome.trace, List.mem_replicate]

theorem processing_task_for_outcome (wifi : Nat → Nat → Bool) (g : Globals) :
    ∀ cs i, ∃ o, processing_task_for wifi g i cs = some o ∧
      ((o.deleted = true ↔
          ∃ k, k < cs.length ∧ stopsHere wifi (i + k) (cs.getD k none) = true) ∧
        o.globals = (if o.deleted then { g with camera_stopped := true } else g) ∧
        ∀ fb, Call.esp_camera_fb_return fb ∉ o.trace) := by
  apply processing_task_for_rec wifi g
    (fun i cs o => (o.deleted = true ↔
          ∃ k, k < cs.length ∧ stopsHere wifi (i + k) (cs.getD k none) = true) ∧
        o.globals = (if o.deleted then { g with camera_stopped := true } else g) ∧
        ∀ fb, Call.esp_camera_fb_return fb ∉ o.trace)
  · intro i
    simp
  · intro i c rest hs
    refine ⟨⟨fun _ => ⟨0, by simp, by simpa using hs⟩, fun _ => rfl⟩, rfl, ?_⟩
    intro fb
    simp [not_return_mem_visit]
  · intro i c rest o hs _ ⟨h1, h2, h3⟩
    refine ⟨?_, h2, ?_⟩
    · show o.deleted = true ↔ _
      rw [h1]
      constructor
      · rintro ⟨k, hk, hst⟩
        refine ⟨k + 1, by simp only [List.length_cons]; omega, ?_⟩
        simp only [List.getD_cons_succ]
        rw [show i + (k + 1) = i + 1 + k by omega]
        exact hst
      · rintro ⟨k, hk, hst⟩
        cases k with
        | zero =>
          simp only [Nat.add_zero, List.getD_cons_zero] at hst
          rw [hs] at hst
          exact Bool.noConfusion hst
        | succ k =>
          refine ⟨k, by simp only [List.length_cons] at hk; omega, ?_⟩
          simp only [List.getD_cons_succ] at hst
          rw [show i + 1 + k = i + (k + 1) by omega]
          exact hst
    · intro fb
      rw [after_trace, List.mem_append]
      rintro (h | h)
      · exact not_return_mem_visit wifi i c fb h
      · exact h3 fb h

theorem processing_task_frame_outcome {fb : Frame} {codes : List (Option (List Char))}
    {wifi : Nat → Nat → Bool} {g : Globals} {o : FrameOutcome}
    (h : processing_task_frame fb codes wifi g = some o) :
    (o.deleted = true ↔ ∃ i, i < codes.length ∧ stopsHere wifi i (codes.getD i none) = true) ∧
    o.globals = (if o.deleted then { g with camera_stopped := true } else g) ∧
    o.trace.count (Call.esp_camera_fb_return fb) = (if o.deleted then 0 else 1) := by
  obtain ⟨o', ho', h1, h2, h3⟩ := processing_task_for_outcome wifi g codes 0
  simp only [processing_task_frame, ho', Option.map_some', Option.some.injEq] at h
  simp only [Nat.zero_add] at h1
  have hc : o'.trace.count (Call.esp_camera_fb_return fb) = 0 :=
    List.count_eq_zero_of_not_mem (h3 fb)
  by_cases hd : o'.deleted = true
  · rw [if_pos hd] at h
    subst h
    exact ⟨h1, h2, by rw [if_pos hd]; exact hc⟩
  · rw [if_neg hd] at h
    subst h
    refine ⟨h1, h2, ?_⟩
    simp only [hd, Bool.false_eq_true, if_false, List.count_append, hc]
    simp

theorem stopsHere_true {wifi : Nat → Nat → Bool} {i : Nat} {code : Option (List Char)}
    (h : stopsHere wifi i code = true) :
    (∃ payload, code = some payload ∧ (credentialOf payload).isSome = true) ∧
    (await_connection (wifi i)).connected = true := by
  cases code with
  | none => simp [stopsHere] at h
  | some p =>
    simp only [stopsHere, Bool.and_eq_true] at h
    exact ⟨⟨p, rfl, h.1⟩, h.2⟩

theorem handler_keeps_camera_stopped (g : Globals) (b : esp_event_base_t) (id : Int) :
    (wifi_event_handler g b id).1.camera_stopped = g.camera_stopped := by
  unfold wifi_event_handler
  split_ifs <;> rfl

theorem step_camera_stopped {s s' : Sys} (h : Step s s') (hs : s.g.camera_stopped = true) :
    s'.g.camera_stopped = true := by
  cases h with
  | event b id => simpa [handler_keeps_camera_stopped] using hs
  | capture hz slot acquired space hrun => exact hs
  | decode fb codes wifi o hrun ho =>
    have := (processing_task_frame_outcome ho).2.1
    show o.globals.camera_stopped = true
    rw [this]
    split_ifs
    · rfl
    · exact hs

theorem reach_camera_stopped {s s' : Sys} (h : Reach s s') (hs : s.g.camera_stopped = true) :
    s'.g.camera_stopped = true := by
  induction h with
  | refl => exact hs
  | tail _ hstep ih => exact step_camera_stopped hstep ih

theorem capture_exited (hz : Nat) (g : Globals) (slot acquired : Option Frame)
    (space : Nat → Bool) :
    (main_task_iteration hz g slot acquired space).exited = g.camera_stopped := by
  unfold main_task_iteration
  cases hg : g.camera_stopped with
  | true => simp
  | false =>
    cases acquired with
    | none => simp
    | some fb =>
      simp only [Bool.false_eq_true, if_false]
      split_ifs <;> rfl

theorem handler_sets_flag (g : Globals) (b : esp_event_base_t) (id : Int)
    (hg : g.wifi_connected = false)
    (h : (wifi_event_handler g b id).1.wifi_connected = true) :
    b = .IP_EVENT ∧ id = IP_EVENT_STA_GOT_IP := by
  by_cases h3 : b = .IP_EVENT ∧ id = IP_EVENT_STA_GOT_IP
  · exact h3
  · exfalso
    unfold wifi_event_handler at h
    rw [if_neg h3] at h
    split_ifs at h <;> simp [hg] at h

/-- Claim C9.  For every prior state, handling Disconnected issues exactly one
`esp_wifi_connect` and leaves the connected flag false; handling
StationStarted issues no call and changes nothing; handling GotAddress sets
the flag and issues no call; the handler turns the flag from false to true
only for GotAddress, and so does the whole program: a step that turns the flag
from false to true is the handling of GotAddress. -/
theorem wifi_event_handler_effects :
    (∀ g, wifi_event_handler g .WIFI_EVENT WIFI_EVENT_STA_DISCONNECTED =
      ({ g with wifi_connected := false }, [Call.esp_wifi_connect])) ∧
    (∀ g, wifi_event_handler g .WIFI_EVENT WIFI_EVENT_STA_START = (g, [])) ∧
    (∀ g, wifi_event_handler g .IP_EVENT IP_EVENT_STA_GOT_IP =
      ({ g with wifi_connected := true }, [])) ∧
    (∀ g event_base event_id, g.wifi_connected = false →
      (wifi_event_handler g event_base event_id).1.wifi_connected = true →
      event_base = .IP_EVENT ∧ event_id = IP_EVENT_STA_GOT_IP) ∧
    (∀ s s', Step s s' → s.g.wifi_connected = false → s'.g.wifi_connected = true →
      s'.g = (wifi_event_handler s.g .IP_EVENT IP_EVENT_STA_GOT_IP).1) := by
  refine ⟨fun g => ?_, fun g => ?_, fun g => ?_, handler_sets_flag, ?_⟩
  · simp [wifi_event_handler, WIFI_EVENT_STA_DISCONNECTED, WIFI_EVENT_STA_START]
  · simp [wifi_event_handler]
  · simp [wifi_event_handler]
  · intro s s' hstep hs hs'
    cases hstep with
    | event b id =>
      obtain ⟨rfl, rfl⟩ := handler_sets_flag s.g b id hs hs'
      rfl
    | capture hz slot acquired space hrun =>
      simp only [] at hs'
      rw [hs] at hs'
      exact Bool.noConfusion hs'
    | decode fb codes wifi o hrun ho =>
      have := (processing_task_frame_outcome ho).2.1
      simp only [] at hs'
      rw [this] at hs'
      have hw : o.globals.wifi_connected = s.g.wifi_connected := by
        rw [this]; split_ifs <;> rfl
      rw [← this, hw, hs] at hs'
      exact Bool.noConfusion hs'

/-- Claim C10.  The flag `camera_stopped` starts false; the event handler never
writes it; processing a frame leaves it unchanged unless the task ends, which
happens only after an attempt for a credential whose wait (at most 100 delays)
ended with the connected flag read as true, and then the flag is true; a step
that sets the flag is such a processing step; in every reachable state a true
flag stays true in all later states; an iteration of the capture loop leaves
the loop exactly when it reads the flag as true, and a failed acquisition
backs off 100 ms and stays in the loop. -/
theorem camera_stopped_write_once :
    Sys.init.g.camera_stopped = false ∧
    (∀ g event_base event_id,
      (wifi_event_handler g event_base event_id).1.camera_stopped = g.camera_stopped) ∧
    (∀ fb codes wifi g o, processing_task_frame fb codes wifi g = some o →
      o.globals.camera_stopped = (g.camera_stopped || o.deleted) ∧
      (o.deleted = true →
        ∃ i payload, codes.getD i none = some payload ∧
          (credentialOf payload).isSome = true ∧
          (await_connection (wifi i)).delays ≤ 100 ∧
          (await_connection (wifi i)).connected = true)) ∧
    (∀ s s', Step s s' → s.g.camera_stopped = false → s'.g.camera_stopped = true →
      ∃ fb codes wifi o, processing_task_frame fb codes wifi s.g = some o ∧
        o.deleted = true ∧ s'.g = o.globals) ∧
    (∀ s s', Reach Sys.init s → Reach s s' →
      s.g.camera_stopped = true → s'.g.camera_stopped = true) ∧
    (∀ hz g slot acquired space,
      (main_task_iteration hz g slot acquired space).exited = g.camera_stopped) ∧
    (∀ hz g slot space, g.camera_stopped = false →
      main_task_iteration hz g slot none space =
        ⟨[Call.esp_camera_fb_get none, Call.vTaskDelay 100], false, slot, 0⟩) ∧
    (∀ s s', Step s s' → s.capture_running = true → s'.capture_running = false →
      s.g.camera_stopped = true) := by
  refine ⟨rfl, handler_keeps_camera_stopped, ?_, ?_, ?_, capture_exited, ?_, ?_⟩
  · intro fb codes wifi g o ho
    obtain ⟨h1, h2, -⟩ := processing_task_frame_outcome ho
    refine ⟨?_, ?_⟩
    · rw [h2]
      cases o.deleted <;> simp
    · intro hd
      obtain ⟨i, -, hst⟩ := h1.mp hd
      obtain ⟨⟨payload, hp, hc⟩, hw⟩ := stopsHere_true hst
      exact ⟨i, payload, hp, hc, wait_loop_le _ 100 0 rfl, hw⟩
  · intro s s' hstep hs hs'
    cases hstep with
    | event b id =>
      have := handler_keeps_camera_stopped s.g b id
      simp only [] at hs'
      rw [this, hs] at hs'
      exact Bool.noConfusion hs'
    | capture hz slot acquired space hrun =>
      simp only [] at hs'
      rw [hs] at hs'
      exact Bool.noConfusion hs'
    | decode fb codes wifi o hrun ho =>
      refine ⟨fb, codes, wifi, o, ho, ?_, rfl⟩
      have := (processing_task_frame_outcome ho).2.1
      simp only [] at hs'
      rw [this] at hs'
      by_contra hd
      rw [if_neg hd, hs] at hs'
      exact Bool.noConfusion hs'
  · intro s s' _ h hs
    exact reach_camera_stopped h hs
  · intro hz g slot space hg
    simp [main_task_iteration, hg]
  · intro s s' hstep hrun hrun'
    cases hstep with
    | event b id =>
      simp only [] at hrun'
      rw [hrun] at hrun'
      exact Bool.noConfusion hrun'
    | capture hz slot acquired space _ =>
      simp only [capture_exited] at hrun'
      simpa using hrun'
    | decode fb codes wifi o _ ho =>
      simp only [] at hrun'
      rw [hrun] at hrun'
      exact Bool.noConfusion hrun'

end QrDemo
